import Mathlib

/-!
Shallow embedding of the shift-scheduling core of the Antigravity repository
(`src/utils.py` and `src/solver.py`), together with theorems settling the
frozen claims about it.

Modelling conventions:
* Worker indices are `Nat` (row positions of the cleaned staff table).
* pandas DataFrames are modelled by the values the solver actually reads:
  the staff table is a `List Staff`; the leave-request and
  mandatory-attendance tables are Boolean functions of (worker row, day
  index), already encoding the "column exists, row exists, cell truthy"
  reads of `solver.py` lines 60-81.
* Python `float` penalty arithmetic is modelled by exact rationals `ℚ`.
  None of the theorems below depends on float rounding: the structural
  invariants hold for every path whatever its score, and the concrete runs
  evaluated in counterexamples have at most one candidate path per day.
* Python's stable `list.sort` / `sorted` is modelled by a stable insertion
  sort `stableSort`; `random.shuffle` is modelled by the Fisher-Yates loop
  CPython runs, with `_randbelow` replaced by an explicit oracle
  `g : Nat → Nat` consumed one value per swap (`g pos % bound`).
* The `st.progress` / `st.empty` calls are UI side effects with no
  influence on the returned table and are not modelled.
-/

namespace Antigravity

/-- A role definition: one entry of `roles_config`
(`utils.py` `DEFAULT_ROLES_CONFIG`; display colours are ignored by the
solver and omitted).  `minPerDay` models `r.get("min_per_day", 1)` and
`priority` models `r.get("priority", 999)`; the UI creates both as
non-negative integers (`st.number_input` bounds 0..10 and 1..99). -/
structure RoleDef where
  name : String
  minPerDay : Nat
  priority : Nat
deriving Repr, DecidableEq

/-- Source: `utils.py` lines 9-14: the default four-role configuration. -/
def DEFAULT_ROLES_CONFIG : List RoleDef :=
  [⟨"A", 1, 1⟩, ⟨"B", 1, 2⟩, ⟨"C", 1, 3⟩, ⟨"ネコ", 1, 4⟩]

/-- Stable insertion step: `x` is placed after every element `y` of the
already-sorted list with `le y x`.  For a total preorder `le` this gives
exactly Python's stable `sorted`. -/
def stableInsert (le : α → α → Bool) (x : α) : List α → List α
  | [] => [x]
  | y :: ys => if le y x then y :: stableInsert le x ys else x :: y :: ys

/-- Stable sort (models Python's `sorted(..., key=...)`, which is stable). -/
def stableSort (le : α → α → Bool) (xs : List α) : List α :=
  xs.foldl (fun acc x => stableInsert le x acc) []

/-- Python-dict update on an association list: replace the value of an
existing key, else append the binding (insertion order preserved). -/
def dictSet [DecidableEq κ] (k : κ) (v : α) : List (κ × α) → List (κ × α)
  | [] => [(k, v)]
  | (k', v') :: rest => if k' = k then (k, v) :: rest else (k', v') :: dictSet k v rest

/-- Python-dict read: the value of `k` if bound. -/
def dictGet [DecidableEq κ] (k : κ) : List (κ × α) → Option α
  | [] => none
  | (k', v') :: rest => if k' = k then some v' else dictGet k rest

/-- Source: `itertools.combinations xs k`, in the generation order CPython uses
(all tuples containing the head first, then the rest). -/
def combinations : Nat → List α → List (List α)
  | 0, _ => [[]]
  | _ + 1, [] => []
  | k + 1, x :: xs => (combinations k xs).map (x :: ·) ++ combinations (k + 1) xs

/-- Source: `utils.py` `get_possible_day_patterns` lines 127-140: all combinations
of the available staff whose size ranges over
`range(min_staff, min(len(available_staff)+1, 10))` where
`min_staff = max(sum of min_per_day, 2)`. -/
def get_possible_day_patterns (available_staff : List Nat) (roles_config : List RoleDef) :
    List (List Nat) :=
  let min_staff := max ((roles_config.map (·.minPerDay)).sum) 2
  ((List.range' min_staff (min (available_staff.length + 1) 10 - min_staff)).map
    (fun size => combinations size available_staff)).flatten

/-- Ascending-priority comparison used by every `sorted(roles_config,
key=lambda r: r.get("priority", 999))` in the source. -/
def rolePrioLe (r1 r2 : RoleDef) : Bool := decide (r1.priority ≤ r2.priority)

/-- Descending-priority comparison (`sorted(..., reverse=True)`,
`solver.py` line 336); Python's reverse sort is also stable. -/
def rolePrioGe (r1 r2 : RoleDef) : Bool := decide (r2.priority ≤ r1.priority)

/-- The greedy per-role reservation loop of `can_cover_required_roles`
(`utils.py` lines 111-123): walk the (priority-sorted) roles, collect the
not-yet-assigned eligible members, fail if fewer than `min_per_day`,
otherwise reserve the first `min_per_day` of them. -/
def greedyCover (staff_list : List Nat) (role_map : Nat → List String) :
    List RoleDef → List Nat → Bool
  | [], _ => true
  | role :: rest, assigned =>
    let candidates := staff_list.filter
      (fun s => !(decide (s ∈ assigned)) && decide (role.name ∈ role_map s))
    if candidates.length < role.minPerDay then false
    else greedyCover staff_list role_map rest (assigned ++ candidates.take role.minPerDay)

/-- Constraint dictionary, holding the values the solver reads:
`constraints.get('min_morning', 3)`, `constraints.get('min_night', 3)` and
`constraints.get('weekday_targets', {}).get(wd_str, ...)` (the weekday
string is in bijection with the Python `weekday()` number, so targets are
keyed by `Fin 7` here; `none` models a weekday absent from the dict). -/
structure Constraints where
  minMorning : Nat
  minNight : Nat
  weekdayTargets : Fin 7 → Option (Nat × Nat)

/-- Source: `utils.py` `can_cover_required_roles` lines 87-123: morning/night
minimum-headcount checks, the `len(staff_list) < total_min` shortcut, then
the greedy per-role reservation in ascending priority order. -/
def can_cover_required_roles (staff_list : List Nat) (role_map : Nat → List String)
    (constraints : Constraints) (roles_config : List RoleDef) : Bool :=
  if staff_list.countP (fun s => decide ("Night" ∈ role_map s)) < constraints.minNight then
    false
  else if staff_list.countP (fun s => decide ("Morning" ∈ role_map s)) < constraints.minMorning then
    false
  else
    let sorted_roles := stableSort rolePrioLe roles_config
    let total_min := (sorted_roles.map (·.minPerDay)).sum
    if staff_list.length < total_min then false
    else greedyCover staff_list role_map sorted_roles []

/-- Source: `versatility_score` (`utils.py` lines 194-195): how many of the
configured role names the worker is capable of. -/
def versatility (role_map : Nat → List String) (role_names : List String) (s : Nat) : Nat :=
  role_names.countP (fun r => decide (r ∈ role_map s))

/-- State threaded through the first two passes of `assign_roles_smartly`:
the `assignments` dict, the `assigned` set (membership only) and the
`role_demand` dict. -/
structure AsgSt where
  asg : List (Nat × String)
  asd : List Nat
  dem : List (String × Nat)
deriving Repr, DecidableEq

/-- One worker of the preference pass (`utils.py` lines 170-177): a
declared preferred role (not NaN, not empty, not "なし") that is a
configured role with remaining demand and within the worker's
capabilities is assigned immediately. -/
def prefStep (role_map : Nat → List String) (prefs : Nat → Option String)
    (st : AsgSt) (s : Nat) : AsgSt :=
  match prefs s with
  | none => st
  | some pref =>
    if pref ≠ "" ∧ pref ≠ "なし" then
      match dictGet pref st.dem with
      | some dv =>
        if 0 < dv ∧ pref ∈ role_map s then
          { asg := dictSet s pref st.asg, asd := s :: st.asd,
            dem := dictSet pref (dv - 1) st.dem }
        else st
      | none => st
    else st

/-- Preference pass: fold `prefStep` over the worker pool in order. -/
def prefPass (role_map : Nat → List String) (prefs : Nat → Option String)
    (pool : List Nat) (dem0 : List (String × Nat)) : AsgSt :=
  pool.foldl (prefStep role_map prefs) { asg := [], asd := [], dem := dem0 }

/-- Inner assignment of the greedy quota pass (`utils.py` lines 198-202):
assign worker `c` to the role, add to the assigned set, erase the first
occurrence from `remaining`, decrement demand. -/
def quotaAssign (rname : String) (st : AsgSt × List Nat) (c : Nat) : AsgSt × List Nat :=
  ({ asg := dictSet c rname st.1.asg, asd := c :: st.1.asd,
     dem := dictSet rname ((dictGet rname st.1.dem).getD 0 - 1) st.1.dem },
   st.2.erase c)

/-- One role of the greedy quota pass (`utils.py` lines 183-202). -/
def quotaStep (role_map : Nat → List String) (role_names : List String)
    (st : AsgSt × List Nat) (role : RoleDef) : AsgSt × List Nat :=
  let needed := (dictGet role.name st.1.dem).getD 0
  if needed = 0 then st
  else
    let candidates := st.2.filter (fun s => decide (role.name ∈ role_map s))
    let candidates :=
      stableSort (fun s1 s2 =>
        decide (versatility role_map role_names s1 ≤ versatility role_map role_names s2))
        candidates
    (candidates.take needed).foldl (quotaAssign role.name) st

/-- Greedy quota pass: roles in ascending priority order. -/
def quotaPass (role_map : Nat → List String) (sorted_roles : List RoleDef)
    (st : AsgSt) (remaining : List Nat) : AsgSt × List Nat :=
  sorted_roles.foldl (quotaStep role_map (sorted_roles.map (·.name))) (st, remaining)

/-- Leftover pass (`utils.py` lines 204-217): every still-unassigned
worker receives the lowest-priority role they are capable of
(`reversed(sorted_roles)`), else the normal-duty label `〇`. -/
def leftoverPass (role_map : Nat → List String) (sorted_roles : List RoleDef)
    (asg : List (Nat × String)) (remaining : List Nat) : List (Nat × String) :=
  remaining.foldl
    (fun a s =>
      match sorted_roles.reverse.find? (fun r => decide (r.name ∈ role_map s)) with
      | some r => dictSet s r.name a
      | none => dictSet s "〇" a)
    asg

/-- Source: `utils.py` `assign_roles_smartly` lines 144-219: preference pass, then
greedy quota pass, then leftover pass.  `prefs s` models
`staff_df.at[s, "優先役割"]` (with `none` for NaN, a missing column, or
`s` out of the table's range, exactly the guards of lines 168-173). -/
def assign_roles_smartly (working_indices : List Nat) (role_map : Nat → List String)
    (roles_config : List RoleDef) (prefs : Nat → Option String) : List (Nat × String) :=
  let pool := working_indices
  let sorted_roles := stableSort rolePrioLe roles_config
  let dem0 := sorted_roles.foldl (fun d r => dictSet r.name r.minPerDay d) []
  let st1 := prefPass role_map prefs pool dem0
  let remaining1 := pool.filter (fun s => !(decide (s ∈ st1.asd)))
  let st2 := quotaPass role_map sorted_roles st1 remaining1
  leftoverPass role_map sorted_roles st2.1.asg st2.2

/-- One staff row, holding the columns `solver.py` reads (lines 41-58):
`名前` (with `none` for NaN), the numeric columns after
`pd.to_numeric(...).fillna(...)`, the `正社員` flag, the per-role
capability flags (true iff the column named by the role exists and the
cell is truthy), `朝可`/`夜可`, and `優先役割` (`none` for NaN or a
missing column). -/
structure Staff where
  name : Option String
  prevCons : Int
  reqOff : Int
  maxCons : Int
  seishain : Bool
  roleFlag : String → Bool
  nightOk : Bool
  morningOk : Bool
  prefRole : Option String

/-- Placeholder row for out-of-range `getD` reads (never reached by the
solver, which only indexes rows `< num_staff`). -/
def dummyStaff : Staff :=
  { name := none, prevCons := 0, reqOff := 0, maxCons := 4, seishain := false,
    roleFlag := fun _ => false, nightOk := false, morningOk := false, prefRole := none }

/-- One day of `days_list`: the solver reads only `.day`, `.weekday()` and
`is_holiday` of each date. -/
structure Day where
  dayOfMonth : Nat
  weekday : Fin 7
  isHol : Bool

/-- Placeholder day for out-of-range `getD` reads. -/
def dummyDay : Day := { dayOfMonth := 1, weekday := 0, isHol := false }

/-- The inputs of `solve_schedule_from_ui` (`solver.py` line 19).
`offReq s d` models `holidays_df[f"Day_{d+1}"].values[s] in [True, '×']`
(false when the column or row is absent); `reqWork s d` models the same
read of `required_work_df` (all-false when that frame is `None`).
`priorityDays` holds the weekday numbers of the priority weekday strings. -/
structure SolveInput where
  staff : List Staff
  offReq : Nat → Nat → Bool
  reqWork : Nat → Nat → Bool
  days : List Day
  constraints : Constraints
  priorityDays : List (Fin 7)
  rolesConfig : List RoleDef

/-- Source: `solver.py` lines 41-43: `dropna(subset=['名前'])` then drop empty
names, then `reset_index`. -/
def staffC (inp : SolveInput) : List Staff :=
  inp.staff.filter (fun st => match st.name with
    | none => false
    | some n => decide (n ≠ ""))

def numStaffOf (inp : SolveInput) : Nat := (staffC inp).length

def numDaysOf (inp : SolveInput) : Nat := inp.days.length

def staffAt (inp : SolveInput) (s : Nat) : Staff := (staffC inp).getD s dummyStaff

def prevConsOf (inp : SolveInput) (s : Nat) : Int := (staffAt inp s).prevCons

def reqOffOf (inp : SolveInput) (s : Nat) : Int := (staffAt inp s).reqOff

def maxConsOf (inp : SolveInput) (s : Nat) : Int := (staffAt inp s).maxCons

def seishainOf (inp : SolveInput) (s : Nat) : Bool := (staffAt inp s).seishain

/-- Preferred-role accessor passed to `assign_roles_smartly`, including
the `s < len(df_reset)` bound check of `utils.py` line 171. -/
def prefOf (inp : SolveInput) (s : Nat) : Option String :=
  if s < numStaffOf inp then (staffAt inp s).prefRole else none

/-- Source: `utils.py` `get_role_map_from_df` lines 57-83 applied to the cleaned
staff table: configured role names whose flag is set, plus the fixed
`Night` / `Morning` capabilities. -/
def roleMapOf (inp : SolveInput) (s : Nat) : List String :=
  (inp.rolesConfig.map (·.name)).filter (staffAt inp s).roleFlag
    ++ (if (staffAt inp s).nightOk then ["Night"] else [])
    ++ (if (staffAt inp s).morningOk then ["Morning"] else [])

/-- Source: `fixed_shifts[s, d] == '×'` after both fixing loops (`solver.py`
lines 60-81): an off-request stands unless overridden by a
mandatory-attendance flag for the same cell. -/
def fixedOff (inp : SolveInput) (s d : Nat) : Bool :=
  inp.offReq s d && !(inp.reqWork s d)

/-- Source: `avail` of `solver.py` line 102: workers without a standing `×`. -/
def availOn (inp : SolveInput) (d : Nat) : List Nat :=
  (List.range (numStaffOf inp)).filter (fun s => !(fixedOff inp s d))

/-- Source: `must_work` of `solver.py` line 104. -/
def mustWorkOn (inp : SolveInput) (d : Nat) : List Nat :=
  (List.range (numStaffOf inp)).filter (fun s => inp.reqWork s d)

/-- Per-day pattern preparation before shuffling (`solver.py` lines
102-110).  NOTE the fallback call on line 110 omits the `roles_config`
keyword and therefore regenerates patterns under
`DEFAULT_ROLES_CONFIG`; the embedding reproduces that faithfully. -/
def rawDayPatterns (inp : SolveInput) (d : Nat) : List (List Nat) :=
  let avail := availOn inp d
  let pats := get_possible_day_patterns avail inp.rolesConfig
  let must := mustWorkOn inp d
  if must = [] then pats
  else
    let filtered := pats.filter (fun p => must.all (fun s => decide (s ∈ p)))
    if filtered = [] then get_possible_day_patterns avail DEFAULT_ROLES_CONFIG
    else filtered

/-- Swap two positions of a list (no-op when out of range), the effect of
`x[i], x[j] = x[j], x[i]`. -/
def listSwap (l : List α) (i j : Nat) : List α :=
  match l.get? i, l.get? j with
  | some xi, some xj => (l.set i xj).set j xi
  | _, _ => l

/-- The loop of CPython's `random.shuffle`: for `i` from `len-1` down to
`1`, swap position `i` with position `_randbelow(i+1)`; here `_randbelow`
is `g pos % (i+1)` with the oracle position advancing once per draw. -/
def fyLoop (g : Nat → Nat) : Nat → List α → Nat → List α × Nat
  | 0, l, pos => (l, pos)
  | i + 1, l, pos => fyLoop g i (listSwap l (i + 1) (g pos % (i + 2))) (pos + 1)

/-- Source: `random.shuffle` on a list, returning the shuffled list and the
advanced oracle position. -/
def shuffleList (g : Nat → Nat) (pos : Nat) (l : List α) : List α × Nat :=
  fyLoop g (l.length - 1) l pos

/-- Builds `day_patterns[d], day_patterns[d+1], ...` for `rem` more days,
threading the oracle position through the per-day shuffles
(`solver.py` lines 100-112). -/
def mkDayPatternsAux (inp : SolveInput) (g : Nat → Nat) : Nat → Nat → Nat → List (List (List Nat))
  | _, _, 0 => []
  | pos, d, rem + 1 =>
    let sh := shuffleList g pos (rawDayPatterns inp d)
    sh.1 :: mkDayPatternsAux inp g sh.2 (d + 1) rem

/-- Source: `day_patterns` (`solver.py` lines 100-112): the per-day candidate
lists after mandatory filtering and shuffling. -/
def mkDayPatterns (inp : SolveInput) (g : Nat → Nat) : List (List (List Nat)) :=
  mkDayPatternsAux inp g 0 0 (numDaysOf inp)

/-- A beam-search path (`solver.py` lines 115-122).  The work/off matrix
is stored as the list of day columns produced so far (each of length
`num_staff`); the numpy pre-allocated all-zero columns beyond the current
day are never read before being written, so this is equivalent. -/
structure Path where
  sched : List (List Bool)
  cons : List Int
  offs : List Int
  offCons : List Int
  weekendOffs : List Int
  score : ℚ
deriving DecidableEq

/-- The single initial path (`solver.py` lines 115-122). -/
def initPath (inp : SolveInput) : Path :=
  { sched := []
    cons := (List.range (numStaffOf inp)).map (prevConsOf inp)
    offs := List.replicate (numStaffOf inp) 0
    offCons := List.replicate (numStaffOf inp) 0
    weekendOffs := List.replicate (numStaffOf inp) 0
    score := 0 }

/-- Source: `work_mask` of a pattern (`solver.py` lines 162-164). -/
def maskColOf (inp : SolveInput) (pat : List Nat) : List Bool :=
  (List.range (numStaffOf inp)).map (fun s => decide (s ∈ pat))

/-- The updated `new_cons` array (`solver.py` lines 170, 184). -/
def newConsOf (inp : SolveInput) (p : Path) (pat : List Nat) : List Int :=
  (List.range (numStaffOf inp)).map
    (fun s => if decide (s ∈ pat) then p.cons.getD s 0 + 1 else 0)

/-- The updated `new_offs` array (`solver.py` line 185). -/
def newOffsOf (inp : SolveInput) (p : Path) (pat : List Nat) : List Int :=
  (List.range (numStaffOf inp)).map
    (fun s => if decide (s ∈ pat) then p.offs.getD s 0 else p.offs.getD s 0 + 1)

/-- The updated `new_off_cons` array (`solver.py` lines 171, 186). -/
def newOffConsOf (inp : SolveInput) (p : Path) (pat : List Nat) : List Int :=
  (List.range (numStaffOf inp)).map
    (fun s => if decide (s ∈ pat) then 0 else p.offCons.getD s 0 + 1)

/-- Whether day `d` is a weekend (`solver.py` line 135). -/
def isWeekendOf (inp : SolveInput) (d : Nat) : Bool :=
  decide (5 ≤ ((inp.days.getD d dummyDay).weekday : Nat))

/-- The updated `new_weekend_offs` array (`solver.py` lines 187-189). -/
def newWeekendOffsOf (inp : SolveInput) (d : Nat) (p : Path) (pat : List Nat) : List Int :=
  (List.range (numStaffOf inp)).map
    (fun s =>
      if decide (s ∈ pat) then p.weekendOffs.getD s 0
      else if isWeekendOf inp d && seishainOf inp s && !(fixedOff inp s d) then
        p.weekendOffs.getD s 0 + 1
      else p.weekendOffs.getD s 0)

/-- Strict-mode hard rejection of the consecutive-workdays check
(`solver.py` lines 172-178): a working worker whose new count exceeds
`limit` by more than the one-day grace (`new_cons == limit + 1` is only
penalised) makes the expansion a `violation`. -/
def stepViolation (inp : SolveInput) (p : Path) (pat : List Nat) : Bool :=
  (List.range (numStaffOf inp)).any
    (fun s => decide (s ∈ pat) && decide (maxConsOf inp s + 1 < p.cons.getD s 0 + 1))

/-- The required-days-off feasibility check (`solver.py` lines 203-208):
some worker can no longer reach their required off-days in the remaining
days. -/
def stepOffsShort (inp : SolveInput) (d : Nat) (p : Path) (pat : List Nat) : Bool :=
  (List.range (numStaffOf inp)).any
    (fun s => decide ((newOffsOf inp p pat).getD s 0 + ((numDaysOf inp - 1 - d : Nat) : Int)
      < reqOffOf inp s))

/-- The per-weekday target pair (`solver.py` lines 88-94):
`weekday_targets` entry for the day's weekday, defaulting to the global
morning/night minimums. -/
def targetsOf (inp : SolveInput) (d : Nat) : Nat × Nat :=
  match inp.constraints.weekdayTargets (inp.days.getD d dummyDay).weekday with
  | some t => t
  | none => (inp.constraints.minMorning, inp.constraints.minNight)

/-- Per-worker penalty contribution of the staff loop (`solver.py` lines
167-195), for a non-rejected expansion. -/
def staffPenalty (inp : SolveInput) (d : Nat) (strict : Bool) (p : Path) (pat : List Nat)
    (s : Nat) : ℚ :=
  let limit := maxConsOf inp s
  if decide (s ∈ pat) then
    let nc := p.cons.getD s 0 + 1
    if limit < nc then
      (if nc = limit + 1 then 1000 else if strict then 0 else 100000)
    else if nc = limit then 50 else 0
  else
    let nwo := (newWeekendOffsOf inp d p pat).getD s 0
    let noc := p.offCons.getD s 0 + 1
    (if isWeekendOf inp d && seishainOf inp s && !(fixedOff inp s d) && decide (1 < nwo)
      then 20000 else 0)
    + (if 3 ≤ noc then
        100 + (if "Neko" ∈ roleMapOf inp s ∧ "C" ∈ roleMapOf inp s ∧ "A" ∉ roleMapOf inp s
          then 200 else 0)
      else 0)

/-- The full incremental penalty of one expansion (`solver.py` lines
156-268), as an exact rational.  Mirrors, in order: the coverage flat
penalty, the staff-loop penalties, the relaxed-mode required-off penalty,
the off-pacing penalty, the end-of-window catch-up penalty, and the
target/surplus penalties with the tightness-scaled surplus weight. -/
def stepPenalty (inp : SolveInput) (d : Nat) (strict : Bool) (p : Path) (pat : List Nat) : ℚ :=
  let numStaff := numStaffOf inp
  let numDays := numDaysOf inp
  let daysLeft : Nat := numDays - 1 - d
  let coverPen : ℚ :=
    if can_cover_required_roles pat (roleMapOf inp) inp.constraints inp.rolesConfig then 0
    else 50000
  let staffPen : ℚ := ((List.range numStaff).map (staffPenalty inp d strict p pat)).sum
  let newOffs := newOffsOf inp p pat
  let offsShortPen : ℚ :=
    if !strict && stepOffsShort inp d p pat then 10000000 else 0
  let diff : Nat → ℚ := fun s =>
    ((newOffs.getD s 0 : ℚ)) - (reqOffOf inp s : ℚ) * (((d : ℚ) + 1) / (numDays : ℚ))
  let pacePen : ℚ :=
    ((List.range numStaff).map
      (fun s => if diff s < 0 then |diff s| * 10000 else |diff s| * 2000)).sum
  let endPen : ℚ :=
    if daysLeft < 8 then
      ((List.range numStaff).map (fun s => if diff s < 0 then |diff s| * 50000 else 0)).sum
    else 0
  let totalRemCap : Int :=
    ((List.range numStaff).map
      (fun s => max 0 (((numDays : Int) - reqOffOf inp s)
        - (((d : Int) + 1) - newOffs.getD s 0)))).sum
  let minNeeded : Nat :=
    ((List.range' (d + 1) (numDays - (d + 1))).map
      (fun fd => max 4 ((targetsOf inp fd).1 + (targetsOf inp fd).2))).sum
  let tightness : ℚ := if 0 < totalRemCap then (minNeeded : ℚ) / (totalRemCap : ℚ) else 2
  let isPriority := decide ((inp.days.getD d dummyDay).weekday ∈ inp.priorityDays)
  let surplusWeight : ℚ :=
    if isPriority then 0
    else if 20 ≤ d then 10000
    else if 1 < tightness then 5000
    else if (9 : ℚ) / 10 < tightness then 1000
    else 500
  let target := targetsOf inp d
  let cM : Nat := pat.countP (fun s => decide ("Morning" ∈ roleMapOf inp s))
  let cN : Nat := pat.countP (fun s => decide ("Night" ∈ roleMapOf inp s))
  let targetPen : ℚ := ((target.1 - cM : Nat) : ℚ) * 50 + ((target.2 - cN : Nat) : ℚ) * 50
  let surplus : Int := max 0 ((pat.length : Int) - (max 4 (target.1 + target.2) : Nat))
  coverPen + staffPen + offsShortPen + pacePen + endPen + targetPen
    + (surplus : ℚ) * surplusWeight

/-- One expansion of one path with one pattern (`solver.py` lines
150-277): `none` when strict mode rejects it (consecutive-workdays
violation or unreachable required off-days), otherwise the successor
path. -/
def stepPath (inp : SolveInput) (d : Nat) (strict : Bool) (p : Path) (pat : List Nat) :
    Option Path :=
  if strict && (stepViolation inp p pat || stepOffsShort inp d p pat) then none
  else some
    { sched := p.sched ++ [maskColOf inp pat]
      cons := newConsOf inp p pat
      offs := newOffsOf inp p pat
      offCons := newOffConsOf inp p pat
      weekendOffs := newWeekendOffsOf inp d p pat
      score := p.score + stepPenalty inp d strict p pat }

/-- Source: `expand_paths` (`solver.py` lines 146-278): every path × every
pattern, keeping the non-rejected expansions in loop order. -/
def expandPaths (inp : SolveInput) (d : Nat) (strict : Bool) (paths : List Path)
    (pats : List (List Nat)) : List Path :=
  paths.flatMap (fun p => pats.filterMap (stepPath inp d strict p))

/-- The capped pattern selection of `solver.py` lines 139-143: 150
feasible + 150 infeasible patterns, or the first 300 overall when that
leaves fewer than 50. -/
def usePatternsOf (inp : SolveInput) (pats : List (List Nat)) : List (List Nat) :=
  let valid := pats.filter
    (fun p => can_cover_required_roles p (roleMapOf inp) inp.constraints inp.rolesConfig)
  let invalid := pats.filter
    (fun p => !(can_cover_required_roles p (roleMapOf inp) inp.constraints inp.rolesConfig))
  let u := valid.take 150 ++ invalid.take 150
  if u.length < 50 then (valid ++ invalid).take 300 else u

/-- The universal-off extension of a path (`solver.py` lines 289-299):
everyone off, consecutive counters reset, a flat 1000000 penalty.  The
numpy matrix keeps its all-zero column for the day, modelled by appending
an all-`false` column. -/
def tier3Path (inp : SolveInput) (p : Path) : Path :=
  { sched := p.sched ++ [List.replicate (numStaffOf inp) false]
    cons := List.replicate (numStaffOf inp) 0
    offs := p.offs.map (· + 1)
    offCons := p.offCons.map (· + 1)
    weekendOffs := p.weekendOffs
    score := p.score + 1000000 }

/-- Path comparison for the beam pruning sort (`solver.py` line 301). -/
def scoreLe (p q : Path) : Bool := decide (p.score ≤ q.score)

/-- One day of the beam search (`solver.py` lines 131-302): strict
expansion over the capped patterns, else relaxed expansion over the first
300 patterns, else the universal-off tier; then the stable sort by score
and the beam-width cut of 600. -/
def dayStep (inp : SolveInput) (pats : List (List Nat)) (d : Nat) (paths : List Path) :
    List Path :=
  let n1 := expandPaths inp d true paths (usePatternsOf inp pats)
  let n :=
    if n1.isEmpty then
      let n2 := expandPaths inp d false paths (pats.take 300)
      if n2.isEmpty then paths.map (tier3Path inp) else n2
    else n1
  (stableSort scoreLe n).take 600

/-- The path set after the first `D` days of the main loop. -/
def searchUpTo (inp : SolveInput) (dayPats : List (List (List Nat))) : Nat → List Path
  | 0 => [initPath inp]
  | d + 1 => dayStep inp (dayPats.getD d []) d (searchUpTo inp dayPats d)

/-- Source: `best_path = current_paths[0]` (`solver.py` line 309), guarded by the
zero-staff rejection of lines 46-47. -/
def bestPathFromPats (inp : SolveInput) (dayPats : List (List (List Nat))) : Option Path :=
  if numStaffOf inp = 0 then none
  else (searchUpTo inp dayPats (numDaysOf inp)).head?

/-- The working subset of a day in the final matrix (`solver.py` line
324). -/
def workingOn (inp : SolveInput) (sched : List (List Bool)) (d : Nat) : List Nat :=
  (List.range (numStaffOf inp)).filter (fun s => (sched.getD d []).getD s false)

/-- The role assignment recomputed during assembly (`solver.py` line
325). -/
def rolesOn (inp : SolveInput) (sched : List (List Bool)) (d : Nat) : List (Nat × String) :=
  assign_roles_smartly (workingOn inp sched d) (roleMapOf inp) inp.rolesConfig (prefOf inp)

/-- Source: `is_insufficient` (`solver.py` line 326): the coverage check
recomputed on the final working set. -/
def insufficientOn (inp : SolveInput) (sched : List (List Bool)) (d : Nat) : Bool :=
  !(can_cover_required_roles (workingOn inp sched d) (roleMapOf inp) inp.constraints
    inp.rolesConfig)

/-- The assembly fallback label (`solver.py` lines 333-341): the
lowest-priority role within the worker's capabilities, else `〇`. -/
def fallbackRole (inp : SolveInput) (s : Nat) : String :=
  match (stableSort rolePrioGe inp.rolesConfig).find?
      (fun r => decide (r.name ∈ roleMapOf inp s)) with
  | some r => r.name
  | none => "〇"

/-- One body cell of the output table (`solver.py` lines 328-343). -/
def cellOf (inp : SolveInput) (sched : List (List Bool)) (s d : Nat) : String :=
  if (sched.getD d []).getD s false then
    match dictGet s (rolesOn inp sched d) with
    | some r => r
    | none => fallbackRole inp s
  else if fixedOff inp s d then "×" else "／"

/-- The day cells of one worker row. -/
def workerRowOf (inp : SolveInput) (sched : List (List Bool)) (s : Nat) : List String :=
  (List.range (numDaysOf inp)).map (cellOf inp sched s)

/-- The `勤(休)` summary cell (`solver.py` lines 348-352). -/
def summaryCell (inp : SolveInput) (cells : List String) : String :=
  let offCnt := cells.countP (fun x => x = "／" || x = "×")
  toString (numDaysOf inp - offCnt) ++ "(" ++ toString offCnt ++ ")"

/-- The shortage row (`solver.py` lines 344-345): `※` exactly on the days
whose recomputed coverage check fails. -/
def shortageRowOf (inp : SolveInput) (sched : List (List Bool)) : List String :=
  (List.range (numDaysOf inp)).map (fun d => if insufficientOn inp sched d then "※" else "")

/-- The returned table: headers, index names, and the cell matrix of the
`pd.DataFrame` built in `solver.py` lines 308-356. -/
structure ScheduleTable where
  topHeader : List String
  bottomHeader : List String
  indexNames : List String
  rows : List (List String)
deriving Repr, DecidableEq

/-- Weekday label row (`solver.py` lines 49, 314-317). -/
def weekdayJp (w : Fin 7) : String :=
  (["月", "火", "水", "木", "金", "土", "日"].getD (w : Nat) "")

/-- Result assembly from the winning path (`solver.py` lines 308-356). -/
def buildOutput (inp : SolveInput) (p : Path) : ScheduleTable :=
  { topHeader := inp.days.map (fun dy => toString dy.dayOfMonth) ++ ["勤(休)"]
    bottomHeader := inp.days.map (fun dy => if dy.isHol then "祝" else weekdayJp dy.weekday)
      ++ [""]
    indexNames := (staffC inp).map (fun st => st.name.getD "") ++ ["不足"]
    rows :=
      ((List.range (numStaffOf inp)).map
        (fun s => workerRowOf inp p.sched s ++ [summaryCell inp (workerRowOf inp p.sched s)]))
      ++ [shortageRowOf inp p.sched ++ [""]] }

/-- The whole solve given already-prepared (shuffled) per-day pattern
lists. -/
def solveFromPatterns (inp : SolveInput) (dayPats : List (List (List Nat))) :
    Option ScheduleTable :=
  (bestPathFromPats inp dayPats).map (buildOutput inp)

/-- Source: `solve_schedule_from_ui` (`solver.py` lines 19-356), the randomness
of the per-day shuffles supplied by the oracle `g`. -/
def solve_schedule_from_ui (inp : SolveInput) (g : Nat → Nat) : Option ScheduleTable :=
  solveFromPatterns inp (mkDayPatterns inp g)

/-- The winning path of a solve (`solver.py` line 309). -/
def bestPathOf (inp : SolveInput) (g : Nat → Nat) : Option Path :=
  bestPathFromPats inp (mkDayPatterns inp g)

/-- The consecutive-workdays run of worker `s` ending at the last column
of `sched`, including the carry-in from before the window: the recurrence
`acc + 1` on a worked day, reset to `0` on an off day, started from the
worker's prior consecutive-workdays count. -/
def consFold (inp : SolveInput) (sched : List (List Bool)) (s : Nat) : Int :=
  sched.foldl (fun acc col => if col.getD s false then acc + 1 else 0) (prevConsOf inp s)

/-- Day `d` of the search was settled by the strict tier: the strict
expansion of the surviving paths is non-empty. -/
def strictOk (inp : SolveInput) (dayPats : List (List (List Nat))) (d : Nat) : Prop :=
  expandPaths inp d true (searchUpTo inp dayPats d) (usePatternsOf inp (dayPats.getD d []))
    ≠ []

instance strictOkDecidable (inp : SolveInput) (dayPats : List (List (List Nat)))
    (d : Nat) : Decidable (strictOk inp dayPats d) :=
  inferInstanceAs (Decidable (expandPaths inp d true (searchUpTo inp dayPats d)
    (usePatternsOf inp (dayPats.getD d [])) ≠ []))

/-! ### Concrete inputs used by counterexamples and witnesses -/

/-- A fixed zero oracle for concrete runs. -/
def g0 : Nat → Nat := fun _ => 0

/-- A staff row with a name, a personal consecutive-workdays limit and a
required-off count; no role capabilities, not full-time, no carry-in. -/
def mkStaff (nm : String) (mc : Int) (ro : Int) : Staff :=
  { name := some nm, prevCons := 0, reqOff := ro, maxCons := mc, seishain := false,
    roleFlag := fun _ => false, nightOk := false, morningOk := false, prefRole := none }

/-- A non-holiday day of the month with the given weekday number. -/
def mkDay (dom : Nat) (wd : Fin 7) : Day := { dayOfMonth := dom, weekday := wd, isHol := false }

/-- Constraints with the given minimums and no per-weekday target dict. -/
def mkConstraints (m n : Nat) : Constraints :=
  { minMorning := m, minNight := n, weekdayTargets := fun _ => none }

/-- C1 counterexample input: one worker who requests every day off and is
flagged mandatory-work on day 0, a one-day window, default roles.  The
minimum team size (4) exceeds the single available worker, so both
expansion tiers are empty and the universal-off tier fires. -/
def tiny1 : SolveInput :=
  { staff := [mkStaff "A" 4 0]
    offReq := fun _ _ => true
    reqWork := fun _ d => decide (d = 0)
    days := [mkDay 26 0]
    constraints := mkConstraints 3 3
    priorityDays := []
    rolesConfig := DEFAULT_ROLES_CONFIG }

/-- C2 counterexample input: two workers with a consecutive-workdays
limit of 1, a three-day window, a single one-person role.  The only
pattern each day is both workers working; day 3 exceeds the limit-plus-one
grace in strict mode, and relaxed mode admits it with a penalty. -/
def tiny2 : SolveInput :=
  { staff := [mkStaff "A" 1 0, mkStaff "B" 1 0]
    offReq := fun _ _ => false
    reqWork := fun _ _ => false
    days := [mkDay 1 0, mkDay 2 1, mkDay 3 2]
    constraints := mkConstraints 0 0
    priorityDays := []
    rolesConfig := [⟨"R", 1, 1⟩] }

/-- C4 counterexample input: one valid worker and an empty date range
(`days_list = []`, i.e. a non-positive range in the UI). -/
def tiny3 : SolveInput :=
  { staff := [mkStaff "A" 4 0]
    offReq := fun _ _ => false
    reqWork := fun _ _ => false
    days := []
    constraints := mkConstraints 3 3
    priorityDays := []
    rolesConfig := DEFAULT_ROLES_CONFIG }

/-- C7 failing input: ten workers all flagged mandatory-work on day 0 and
a single one-person role.  Every pattern has at most 9 members, so the
mandatory filter empties the list and the fallback of `solver.py` line
110 runs — under `DEFAULT_ROLES_CONFIG` instead of the solve's config. -/
def inp7 : SolveInput :=
  { staff := (List.range 10).map (fun i => mkStaff ("S" ++ toString i) 4 0)
    offReq := fun _ _ => false
    reqWork := fun _ _ => true
    days := [mkDay 1 0]
    constraints := mkConstraints 0 0
    priorityDays := []
    rolesConfig := [⟨"R", 1, 1⟩] }

/-- Witness input: two workers, one day, worker 0 mandatory, a single
one-person role; the strict tier succeeds and the only candidate pattern
is both workers working. -/
def w1 : SolveInput :=
  { staff := [mkStaff "A" 4 0, mkStaff "B" 4 0]
    offReq := fun _ _ => false
    reqWork := fun s _ => decide (s = 0)
    days := [mkDay 26 0]
    constraints := mkConstraints 0 0
    priorityDays := []
    rolesConfig := [⟨"R", 1, 1⟩] }

/-- Witness input for the requested-off invariant: three workers, worker
2 requests day 0 off and is not mandatory. -/
def w2 : SolveInput :=
  { staff := [mkStaff "A" 4 0, mkStaff "B" 4 0, mkStaff "C" 4 0]
    offReq := fun s _ => decide (s = 2)
    reqWork := fun _ _ => false
    days := [mkDay 26 0]
    constraints := mkConstraints 0 0
    priorityDays := []
    rolesConfig := [⟨"R", 1, 1⟩] }

/-! ### Counterexample and divergence theorems -/

/-- C1 counterexample: in `tiny1`, worker 0 is flagged mandatory-work on
day 0 (and simultaneously requests it off), yet the returned schedule
shows the worker off (`／`) on that day — the universal-off fallback
tier put everyone off, mandatory flags included.  This refutes the claim
that the schedule never shows a mandatory worker off under all three
fallback tiers. -/
theorem C1_counterexample :
    tiny1.reqWork 0 0 = true ∧
    (solve_schedule_from_ui tiny1 g0).map (fun T => (T.rows.getD 0 []).getD 0 "") =
      some "／" := by
  exact ⟨rfl, by decide⟩

/-- C2 counterexample: in `tiny2`, worker 0 has a maximum-consecutive
limit of 1, yet the returned schedule works the worker on all three days
(run of 3 > limit + 1 = 2) — the relaxed tier admits runs beyond
limit + 1 with a finite penalty.  This refutes the claim that runs never
exceed the personal limit plus one. -/
theorem C2_counterexample :
    maxConsOf tiny2 0 = 1 ∧
    (bestPathOf tiny2 g0).map (fun p => consFold tiny2 p.sched 0) = some 3 ∧
    (solve_schedule_from_ui tiny2 g0).map (fun T => T.rows.getD 0 []) =
      some ["〇", "〇", "〇", "3(0)"] := by
  refine ⟨rfl, by decide, by decide⟩

/-- C4 counterexample: `tiny3` has a non-positive date range (empty
`days_list`) and one valid worker, yet `solve_schedule_from_ui` returns a
(degenerate) schedule rather than no result — the date range is not
checked inside the solver. -/
theorem C4_counterexample :
    numDaysOf tiny3 = 0 ∧ (solve_schedule_from_ui tiny3 g0).isSome = true := by
  exact ⟨rfl, by decide⟩

set_option maxRecDepth 100000 in
/-- C7 divergence: in `inp7` the mandatory filter empties the candidate
list, and the fallback list actually used is the generator output under
`DEFAULT_ROLES_CONFIG` (sizes 4..9, 847 patterns), not the solve's own
`roles_config` (sizes 2..9, 1012 patterns) as the spec requires —
`solver.py` line 110 omits the `roles_config` argument. -/
theorem C7_bug :
    mustWorkOn inp7 0 ≠ [] ∧
    (get_possible_day_patterns (availOn inp7 0) inp7.rolesConfig).filter
      (fun p => (mustWorkOn inp7 0).all (fun s => decide (s ∈ p))) = [] ∧
    rawDayPatterns inp7 0 = get_possible_day_patterns (availOn inp7 0) DEFAULT_ROLES_CONFIG ∧
    (rawDayPatterns inp7 0).length = 847 ∧
    (get_possible_day_patterns (availOn inp7 0) inp7.rolesConfig).length = 1012 ∧
    rawDayPatterns inp7 0 ≠ get_possible_day_patterns (availOn inp7 0) inp7.rolesConfig := by
  refine ⟨by decide, by decide, by decide, by decide, by decide, ?_⟩
  intro h
  have hl := congrArg List.length h
  rw [show (rawDayPatterns inp7 0).length = 847 from by decide,
    show (get_possible_day_patterns (availOn inp7 0) inp7.rolesConfig).length = 1012 from by
      decide] at hl
  exact absurd hl (by decide)

/-! ### Helper lemmas -/

theorem getD_map_range {α : Type} (f : Nat → α) (n s : Nat) (d : α) (h : s < n) :
    ((List.range n).map f).getD s d = f s := by
  rw [List.getD_eq_getElem?_getD]
  simp [List.getElem?_map, List.getElem?_range h]

theorem getD_replicate' {α : Type} (n s : Nat) (a d : α) (h : s < n) :
    (List.replicate n a).getD s d = a := by
  rw [List.getD_eq_getElem?_getD]
  simp [List.getElem?_replicate, h]

theorem getD_append_left {α : Type} (l l' : List α) (n : Nat) (h : n < l.length) (d : α) :
    (l ++ l').getD n d = l.getD n d := by
  simp [List.getD_eq_getElem?_getD, List.getElem?_append_left h]

theorem getD_append_last {α : Type} (l : List α) (x d : α) :
    (l ++ [x]).getD l.length d = x := by
  simp [List.getD_eq_getElem?_getD, List.getElem?_append_right (le_refl l.length)]

theorem mem_stableInsert {α : Type} (le : α → α → Bool) (x y : α) (l : List α) :
    y ∈ stableInsert le x l ↔ y = x ∨ y ∈ l := by
  induction l with
  | nil => simp [stableInsert]
  | cons z zs ih =>
    simp only [stableInsert]
    split
    · simp only [List.mem_cons, ih]
      tauto
    · simp only [List.mem_cons]

theorem mem_stableSort_fold {α : Type} (le : α → α → Bool) (xs acc : List α) (y : α) :
    y ∈ xs.foldl (fun a x => stableInsert le x a) acc ↔ y ∈ acc ∨ y ∈ xs := by
  induction xs generalizing acc with
  | nil => simp
  | cons z zs ih =>
    simp only [List.foldl_cons, ih, mem_stableInsert, List.mem_cons]
    tauto

theorem mem_stableSort {α : Type} (le : α → α → Bool) (xs : List α) (y : α) :
    y ∈ stableSort le xs ↔ y ∈ xs := by
  simp [stableSort, mem_stableSort_fold]

theorem length_stableInsert {α : Type} (le : α → α → Bool) (x : α) (l : List α) :
    (stableInsert le x l).length = l.length + 1 := by
  induction l with
  | nil => rfl
  | cons z zs ih =>
    by_cases h : le z x = true <;> simp [stableInsert, h, ih]

theorem length_stableSort_fold {α : Type} (le : α → α → Bool) (xs acc : List α) :
    (xs.foldl (fun a x => stableInsert le x a) acc).length = acc.length + xs.length := by
  induction xs generalizing acc with
  | nil => simp
  | cons z zs ih => simp [ih, length_stableInsert]; omega

theorem length_stableSort {α : Type} (le : α → α → Bool) (xs : List α) :
    (stableSort le xs).length = xs.length := by
  simp [stableSort, length_stableSort_fold]

/-- Membership characterization of `combinations`: exactly the sublists
of the given length (each element used at most once, order preserved —
the semantics of `itertools.combinations`). -/
theorem mem_combinations {α : Type} :
    ∀ (xs : List α) (k : Nat) (l : List α),
      l ∈ combinations k xs ↔ l.Sublist xs ∧ l.length = k := by
  intro xs
  induction xs with
  | nil =>
    intro k l
    cases k with
    | zero =>
      simp only [combinations, List.mem_singleton]
      constructor
      · rintro rfl; exact ⟨List.Sublist.refl _, rfl⟩
      · rintro ⟨hs, _⟩; exact List.sublist_nil.mp hs
    | succ k =>
      simp only [combinations, List.not_mem_nil, false_iff, not_and]
      intro hs
      have := List.sublist_nil.mp hs
      subst this
      simp
  | cons x xs ih =>
    intro k l
    cases k with
    | zero =>
      simp only [combinations, List.mem_singleton]
      constructor
      · rintro rfl; exact ⟨List.nil_sublist _, rfl⟩
      · rintro ⟨_, hl⟩; exact List.length_eq_zero.mp hl
    | succ k =>
      simp only [combinations, List.mem_append, List.mem_map, ih]
      constructor
      · rintro (⟨t, ⟨hts, htl⟩, rfl⟩ | ⟨hs, hl⟩)
        · exact ⟨hts.cons₂ x, by simp [htl]⟩
        · exact ⟨hs.cons x, hl⟩
      · rintro ⟨hs, hl⟩
        rcases List.sublist_cons_iff.mp hs with h | ⟨r, rfl, hr⟩
        · exact Or.inr ⟨h, hl⟩
        · exact Or.inl ⟨r, ⟨hr, by simpa using hl⟩, rfl⟩

/-- Membership characterization of `get_possible_day_patterns`: exactly
the sublists of the available list whose size is between the minimum team
size and `min(available, 9)`. -/
theorem gpdp_mem_iff (avail : List Nat) (cfg : List RoleDef) (l : List Nat) :
    l ∈ get_possible_day_patterns avail cfg ↔
      l.Sublist avail ∧ max ((cfg.map (·.minPerDay)).sum) 2 ≤ l.length ∧
        l.length ≤ min avail.length 9 := by
  simp only [get_possible_day_patterns, List.mem_flatten, List.mem_map]
  constructor
  · rintro ⟨pl, ⟨size, hsize, rfl⟩, hmem⟩
    obtain ⟨hsub, hlen⟩ := (mem_combinations avail size l).mp hmem
    rw [List.mem_range'_1] at hsize
    exact ⟨hsub, by omega, by omega⟩
  · rintro ⟨hsub, h1, h2⟩
    refine ⟨combinations l.length avail, ⟨l.length, ?_, rfl⟩,
      (mem_combinations avail l.length l).mpr ⟨hsub, rfl⟩⟩
    rw [List.mem_range'_1]
    omega

/-- C8: `get_possible_day_patterns(available_staff, roles_config)`
returns exactly the order-insensitive combinations (sublists) of the
available workers whose size `s` satisfies
`max(sum of min_per_day, 2) ≤ s ≤ min(available count, 9)`: every
combination in that range appears and no other does. -/
theorem C8_day_patterns_exact (avail : List Nat) (cfg : List RoleDef) (l : List Nat) :
    l ∈ get_possible_day_patterns avail cfg ↔
      l.Sublist avail ∧ max ((cfg.map (·.minPerDay)).sum) 2 ≤ l.length ∧
        l.length ≤ min avail.length 9 :=
  gpdp_mem_iff avail cfg l

/-! ### C6: coverage feasibility check -/

/-- If the greedy reservation succeeds on a duplicate-free subset, the
workers reserved so far plus all remaining demands fit inside the subset:
each round reserves exactly `min_per_day` fresh members. -/
theorem greedy_assigned_le (staff : List Nat) (rm : Nat → List String) :
    ∀ (roles : List RoleDef) (asg : List Nat), staff.Nodup → asg.Nodup →
      (∀ a ∈ asg, a ∈ staff) → greedyCover staff rm roles asg = true →
      asg.length + ((roles.map (·.minPerDay)).sum) ≤ staff.length := by
  intro roles
  induction roles with
  | nil =>
    intro asg hstaff hnd hsub _
    simpa using (hnd.subperm hsub).length_le
  | cons role rest ih =>
    intro asg hstaff hnd hsub hg
    rw [greedyCover] at hg
    set cands := staff.filter
      (fun s => !(decide (s ∈ asg)) && decide (role.name ∈ rm s)) with hcands
    by_cases hlt : cands.length < role.minPerDay
    · rw [if_pos hlt] at hg
      exact absurd hg (by simp)
    · rw [if_neg hlt] at hg
      have htake_len : (cands.take role.minPerDay).length = role.minPerDay := by
        rw [List.length_take]
        omega
      have hcands_nd : cands.Nodup := hstaff.filter _
      have htake_nd : (cands.take role.minPerDay).Nodup :=
        hcands_nd.sublist (List.take_sublist _ _)
      have htake_fresh : ∀ a ∈ cands.take role.minPerDay, a ∉ asg := by
        intro a ha hmem
        have := (List.mem_filter.mp (List.mem_of_mem_take ha)).2
        simp only [Bool.and_eq_true, Bool.not_eq_true', decide_eq_false_iff_not,
          decide_eq_true_eq] at this
        exact this.1 hmem
      have hnd' : (asg ++ cands.take role.minPerDay).Nodup := by
        rw [List.nodup_append]
        exact ⟨hnd, htake_nd, fun a ha hb => htake_fresh a hb ha⟩
      have hsub' : ∀ a ∈ asg ++ cands.take role.minPerDay, a ∈ staff := by
        intro a ha
        rcases List.mem_append.mp ha with h | h
        · exact hsub a h
        · exact List.mem_of_mem_filter (List.mem_of_mem_take h)
      have := ih (asg ++ cands.take role.minPerDay) hstaff hnd' hsub' hg
      rw [List.length_append, htake_len] at this
      simp only [List.map_cons, List.sum_cons]
      omega

/-- The specification-side statement of the coverage check (spec §4.3):
(a) enough night-eligible members, (b) enough morning-eligible members,
(c) the greedy priority-ordered reservation of every role's
`min_per_day` from the not-yet-assigned eligible members succeeds. -/
def coverageSpec (staff_list : List Nat) (role_map : Nat → List String)
    (constraints : Constraints) (roles_config : List RoleDef) : Prop :=
  constraints.minNight ≤ staff_list.countP (fun s => decide ("Night" ∈ role_map s)) ∧
  constraints.minMorning ≤ staff_list.countP (fun s => decide ("Morning" ∈ role_map s)) ∧
  greedyCover staff_list role_map (stableSort rolePrioLe roles_config) [] = true

/-- C6: on a duplicate-free subset, `can_cover_required_roles` returns
true iff the three spec conditions hold — the extra
`len(staff_list) < total_min` shortcut of the code is redundant, since a
successful greedy reservation already pins `total_min` distinct members
inside the subset. -/
theorem C6_can_cover_iff_spec (staff_list : List Nat) (role_map : Nat → List String)
    (constraints : Constraints) (roles_config : List RoleDef) (hnd : staff_list.Nodup) :
    can_cover_required_roles staff_list role_map constraints roles_config = true ↔
      coverageSpec staff_list role_map constraints roles_config := by
  unfold can_cover_required_roles coverageSpec
  by_cases h1 : staff_list.countP (fun s => decide ("Night" ∈ role_map s)) <
      constraints.minNight
  · rw [if_pos h1]
    simp only [Bool.false_eq_true, false_iff, not_and]
    intro h
    omega
  · rw [if_neg h1]
    by_cases h2 : staff_list.countP (fun s => decide ("Morning" ∈ role_map s)) <
        constraints.minMorning
    · rw [if_pos h2]
      simp only [Bool.false_eq_true, false_iff, not_and]
      intro _ h
      omega
    · rw [if_neg h2]
      by_cases h3 : staff_list.length <
          (((stableSort rolePrioLe roles_config).map (·.minPerDay)).sum)
      · rw [if_pos h3]
        simp only [Bool.false_eq_true, false_iff, not_and]
        intro _ _ hg
        have := greedy_assigned_le staff_list role_map
          (stableSort rolePrioLe roles_config) [] hnd List.nodup_nil (by simp) hg
        simp only [List.length_nil, Nat.zero_add] at this
        omega
      · rw [if_neg h3]
        constructor
        · intro hg
          exact ⟨by omega, by omega, hg⟩
        · intro ⟨_, _, hg⟩
          exact hg

/-- Witness for C6 at a concrete duplicate-free subset. -/
theorem C6_witness :
    ([0, 1] : List Nat).Nodup ∧
    (can_cover_required_roles [0, 1] (fun _ => ["R", "Night", "Morning"])
        (mkConstraints 1 1) [⟨"R", 1, 1⟩] = true ↔
      coverageSpec [0, 1] (fun _ => ["R", "Night", "Morning"])
        (mkConstraints 1 1) [⟨"R", 1, 1⟩]) :=
  ⟨by decide, C6_can_cover_iff_spec [0, 1] (fun _ => ["R", "Night", "Morning"])
    (mkConstraints 1 1) [⟨"R", 1, 1⟩] (by decide)⟩

/-! ### C5: shortage marker -/

/-- C5: in the assembled table, the dedicated shortage row carries `※`
on day `d` iff the coverage-feasibility check — recomputed during
assembly on the day's final working set — fails.  Stated for every
winning path, hence for every returned schedule. -/
theorem C5_shortage_marker (inp : SolveInput) (p : Path) (d : Nat)
    (hd : d < numDaysOf inp) :
    (((buildOutput inp p).rows.getD (numStaffOf inp) []).getD d "" = "※" ↔
      can_cover_required_roles (workingOn inp p.sched d) (roleMapOf inp) inp.constraints
        inp.rolesConfig = false) := by
  have hrow : ((buildOutput inp p).rows.getD (numStaffOf inp) []) =
      shortageRowOf inp p.sched ++ [""] := by
    simp only [buildOutput]
    have hlen : ((List.range (numStaffOf inp)).map
        (fun s => workerRowOf inp p.sched s ++ [summaryCell inp (workerRowOf inp p.sched s)])).length
        = numStaffOf inp := by
      simp
    rw [List.getD_eq_getElem?_getD, List.getElem?_append_right (le_of_eq hlen), hlen]
    simp
  rw [hrow]
  have hcell : (shortageRowOf inp p.sched ++ [""]).getD d "" =
      (if insufficientOn inp p.sched d then "※" else "") := by
    have hlen : (shortageRowOf inp p.sched).length = numDaysOf inp := by
      simp [shortageRowOf]
    rw [getD_append_left _ _ d (by omega)]
    exact getD_map_range _ _ _ _ hd
  rw [hcell]
  unfold insufficientOn
  cases hcc : can_cover_required_roles (workingOn inp p.sched d) (roleMapOf inp)
      inp.constraints inp.rolesConfig
  · simp
  · simp

/-- Witness for C5 at a concrete input and path. -/
theorem C5_witness :
    0 < numDaysOf tiny2 ∧
    (((buildOutput tiny2 (initPath tiny2)).rows.getD (numStaffOf tiny2) []).getD 0 "" = "※" ↔
      can_cover_required_roles (workingOn tiny2 (initPath tiny2).sched 0) (roleMapOf tiny2)
        tiny2.constraints tiny2.rolesConfig = false) :=
  ⟨by decide, C5_shortage_marker tiny2 (initPath tiny2) 0 (by decide)⟩

/-! ### C10: determinism -/

/-- C10: the solve is a deterministic function of the inputs and the
random state, and consumes randomness only through the per-day pattern
shuffle: any two oracle states producing the same shuffled per-day
pattern lists produce bit-identical schedule tables. -/
theorem C10_deterministic (inp : SolveInput) (g1 g2 : Nat → Nat)
    (h : mkDayPatterns inp g1 = mkDayPatterns inp g2) :
    solve_schedule_from_ui inp g1 = solve_schedule_from_ui inp g2 := by
  unfold solve_schedule_from_ui
  rw [h]

/-- Witness for C10: two different oracles that shuffle `w1`'s singleton
pattern lists identically give identical tables. -/
theorem C10_witness :
    mkDayPatterns w1 g0 = mkDayPatterns w1 (fun _ => 1) ∧
    solve_schedule_from_ui w1 g0 = solve_schedule_from_ui w1 (fun _ => 1) :=
  ⟨by decide, C10_deterministic w1 g0 (fun _ => 1) (by decide)⟩

/-! ### C9: role-assignment heuristic -/

theorem dictGet_dictSet_self [DecidableEq κ] (k : κ) (v : α) (l : List (κ × α)) :
    dictGet k (dictSet k v l) = some v := by
  induction l with
  | nil => simp [dictSet, dictGet]
  | cons p rest ih =>
    obtain ⟨k', v'⟩ := p
    by_cases h : k' = k
    · simp [dictSet, dictGet, h]
    · simp [dictSet, dictGet, h, ih]

theorem dictGet_dictSet_ne [DecidableEq κ] (k k' : κ) (h : k' ≠ k) (v : α)
    (l : List (κ × α)) : dictGet k' (dictSet k v l) = dictGet k' l := by
  induction l with
  | nil =>
    simp only [dictSet, dictGet]
    rw [if_neg (fun hk => h hk.symm)]
  | cons p rest ih =>
    obtain ⟨a, b⟩ := p
    by_cases ha : a = k
    · subst ha
      simp only [dictSet, if_pos rfl, dictGet]
      rw [if_neg (fun hk => h hk.symm), if_neg (fun hk => h hk.symm)]
    · simp only [dictSet, if_neg ha, dictGet]
      by_cases hak : a = k'
      · rw [if_pos hak, if_pos hak]
      · rw [if_neg hak, if_neg hak, ih]

theorem isSome_dictGet_dictSet [DecidableEq κ] (k k' : κ) (v : α) (l : List (κ × α)) :
    (dictGet k' (dictSet k v l)).isSome = true ↔ k' = k ∨ (dictGet k' l).isSome = true := by
  by_cases h : k' = k
  · subst h
    simp [dictGet_dictSet_self]
  · rw [dictGet_dictSet_ne k k' h v l]
    simp [h]

theorem prefStep_isSome_mono (rm : Nat → List String) (prefs : Nat → Option String)
    (st : AsgSt) (x s : Nat) (h : (dictGet s st.asg).isSome = true) :
    (dictGet s (prefStep rm prefs st x).asg).isSome = true := by
  unfold prefStep
  split
  · exact h
  · split
    · split
      · split
        · exact (isSome_dictGet_dictSet x s _ _).mpr (Or.inr h)
        · exact h
      · exact h
    · exact h

theorem prefStep_isSome_src (rm : Nat → List String) (prefs : Nat → Option String)
    (st : AsgSt) (x s : Nat)
    (h : (dictGet s (prefStep rm prefs st x).asg).isSome = true) :
    (dictGet s st.asg).isSome = true ∨ s = x := by
  unfold prefStep at h
  revert h
  split
  · exact fun h => Or.inl h
  · split
    · split
      · split
        · intro h
          rcases (isSome_dictGet_dictSet x s _ _).mp h with h' | h'
          · exact Or.inr h'
          · exact Or.inl h'
        · exact fun h => Or.inl h
      · exact fun h => Or.inl h
    · exact fun h => Or.inl h

theorem prefStep_asd_inv (rm : Nat → List String) (prefs : Nat → Option String)
    (st : AsgSt) (x : Nat)
    (hinv : ∀ t ∈ st.asd, (dictGet t st.asg).isSome = true) :
    ∀ t ∈ (prefStep rm prefs st x).asd,
      (dictGet t (prefStep rm prefs st x).asg).isSome = true := by
  unfold prefStep
  split
  · exact hinv
  · split
    · split
      · split
        · intro t ht
          simp only [List.mem_cons] at ht
          rcases ht with rfl | ht
          · simp [dictGet_dictSet_self]
          · exact (isSome_dictGet_dictSet x t _ _).mpr (Or.inr (hinv t ht))
        · exact hinv
      · exact hinv
    · exact hinv

theorem prefPass_fold_asd_inv (rm : Nat → List String) (prefs : Nat → Option String) :
    ∀ (pool : List Nat) (st : AsgSt),
      (∀ t ∈ st.asd, (dictGet t st.asg).isSome = true) →
      ∀ t ∈ (pool.foldl (prefStep rm prefs) st).asd,
        (dictGet t (pool.foldl (prefStep rm prefs) st).asg).isSome = true := by
  intro pool
  induction pool with
  | nil => exact fun st h => h
  | cons x xs ih =>
    intro st h
    exact ih (prefStep rm prefs st x) (prefStep_asd_inv rm prefs st x h)

theorem prefPass_fold_keys (rm : Nat → List String) (prefs : Nat → Option String) :
    ∀ (pool : List Nat) (st : AsgSt) (s : Nat),
      (dictGet s (pool.foldl (prefStep rm prefs) st).asg).isSome = true →
      (dictGet s st.asg).isSome = true ∨ s ∈ pool := by
  intro pool
  induction pool with
  | nil => exact fun st s h => Or.inl h
  | cons x xs ih =>
    intro st s h
    rcases ih (prefStep rm prefs st x) s h with h' | h'
    · rcases prefStep_isSome_src rm prefs st x s h' with h'' | rfl
      · exact Or.inl h''
      · exact Or.inr (List.mem_cons_self s xs)
    · exact Or.inr (List.mem_cons_of_mem x h')

/-- Invariant carried through the greedy quota pass: keys grew only by
members of the initial remaining pool, the remaining pool shrank within
the initial one, every member of the initial pool is either assigned or
still remaining, and previously assigned keys stay assigned. -/
def QInv (asg1 : List (Nat × String)) (rem1 : List Nat) (st : AsgSt × List Nat) : Prop :=
  (∀ t, (dictGet t st.1.asg).isSome = true → (dictGet t asg1).isSome = true ∨ t ∈ rem1) ∧
  (∀ t ∈ st.2, t ∈ rem1) ∧
  (∀ t ∈ rem1, (dictGet t st.1.asg).isSome = true ∨ t ∈ st.2) ∧
  (∀ t, (dictGet t asg1).isSome = true → (dictGet t st.1.asg).isSome = true)

theorem quotaAssign_QInv (asg1 : List (Nat × String)) (rem1 : List Nat) (rname : String)
    (c : Nat) (st : AsgSt × List Nat) (hc : c ∈ rem1) (h : QInv asg1 rem1 st) :
    QInv asg1 rem1 (quotaAssign rname st c) := by
  obtain ⟨h1, h2, h3, h4⟩ := h
  refine ⟨?_, ?_, ?_, ?_⟩
  · intro t ht
    rcases (isSome_dictGet_dictSet c t _ _).mp ht with rfl | ht'
    · exact Or.inr hc
    · exact h1 t ht'
  · intro t ht
    exact h2 t (List.erase_subset _ _ ht)
  · intro t ht
    rcases h3 t ht with h' | h'
    · exact Or.inl ((isSome_dictGet_dictSet c t _ _).mpr (Or.inr h'))
    · by_cases he : t = c
      · subst he
        exact Or.inl (by simp [quotaAssign, dictGet_dictSet_self])
      · exact Or.inr ((List.mem_erase_of_ne he).mpr h')
  · intro t ht
    exact (isSome_dictGet_dictSet c t _ _).mpr (Or.inr (h4 t ht))

theorem foldl_quotaAssign_QInv (asg1 : List (Nat × String)) (rem1 : List Nat)
    (rname : String) :
    ∀ (cs : List Nat) (st : AsgSt × List Nat), (∀ c ∈ cs, c ∈ rem1) →
      QInv asg1 rem1 st → QInv asg1 rem1 (cs.foldl (quotaAssign rname) st) := by
  intro cs
  induction cs with
  | nil => exact fun st _ h => h
  | cons c cs ih =>
    intro st hcs h
    exact ih (quotaAssign rname st c) (fun x hx => hcs x (List.mem_cons_of_mem c hx))
      (quotaAssign_QInv asg1 rem1 rname c st (hcs c (List.mem_cons_self c cs)) h)

theorem quotaStep_QInv (asg1 : List (Nat × String)) (rem1 : List Nat)
    (rm : Nat → List String) (rns : List String) (role : RoleDef)
    (st : AsgSt × List Nat) (h : QInv asg1 rem1 st) :
    QInv asg1 rem1 (quotaStep rm rns st role) := by
  simp only [quotaStep]
  split
  · exact h
  · apply foldl_quotaAssign_QInv
    · intro c hc
      have hc1 := List.mem_of_mem_take hc
      rw [mem_stableSort] at hc1
      exact h.2.1 c (List.mem_of_mem_filter hc1)
    · exact h

theorem quotaPass_fold_QInv (asg1 : List (Nat × String)) (rem1 : List Nat)
    (rm : Nat → List String) (rns : List String) :
    ∀ (roles : List RoleDef) (st : AsgSt × List Nat),
      QInv asg1 rem1 st → QInv asg1 rem1 (roles.foldl (quotaStep rm rns) st) := by
  intro roles
  induction roles with
  | nil => exact fun st h => h
  | cons role rest ih =>
    intro st h
    exact ih (quotaStep rm rns st role) (quotaStep_QInv asg1 rem1 rm rns role st h)

theorem leftover_total (rm : Nat → List String) (roles : List RoleDef) :
    ∀ (rem : List Nat) (asg : List (Nat × String)) (t : Nat),
      ((dictGet t asg).isSome = true ∨ t ∈ rem) →
      (dictGet t (leftoverPass rm roles asg rem)).isSome = true := by
  intro rem
  induction rem with
  | nil =>
    intro asg t h
    rcases h with h | h
    · exact h
    · exact absurd h (List.not_mem_nil t)
  | cons r rs ih =>
    intro asg t h
    show (dictGet t (leftoverPass rm roles _ rs)).isSome = true
    apply ih
    rcases h with h | h
    · left
      cases hf : roles.reverse.find? (fun rr => decide (rr.name ∈ rm r)) with
      | none =>
        simp only [hf]
        exact (isSome_dictGet_dictSet r t _ _).mpr (Or.inr h)
      | some rr =>
        simp only [hf]
        exact (isSome_dictGet_dictSet r t _ _).mpr (Or.inr h)
    · simp only [List.mem_cons] at h
      rcases h with rfl | h
      · left
        cases hf : roles.reverse.find? (fun rr => decide (rr.name ∈ rm t)) with
        | none => simp only [hf, dictGet_dictSet_self, Option.isSome_some]
        | some rr => simp only [hf, dictGet_dictSet_self, Option.isSome_some]
      · exact Or.inr h

theorem leftover_src (rm : Nat → List String) (roles : List RoleDef) :
    ∀ (rem : List Nat) (asg : List (Nat × String)) (t : Nat),
      (dictGet t (leftoverPass rm roles asg rem)).isSome = true →
      (dictGet t asg).isSome = true ∨ t ∈ rem := by
  intro rem
  induction rem with
  | nil => exact fun asg t h => Or.inl h
  | cons r rs ih =>
    intro asg t h
    have h' := ih _ t h
    rcases h' with h' | h'
    · have hb : (dictGet t
          (match roles.reverse.find? (fun rr => decide (rr.name ∈ rm r)) with
          | some rr => dictSet r rr.name asg
          | none => dictSet r "〇" asg)).isSome = true := h'
      cases hf : roles.reverse.find? (fun rr => decide (rr.name ∈ rm r)) with
      | none =>
        rw [hf] at hb
        rcases (isSome_dictGet_dictSet r t _ _).mp hb with rfl | h''
        · exact Or.inr (List.mem_cons_self t rs)
        · exact Or.inl h''
      | some rr =>
        rw [hf] at hb
        rcases (isSome_dictGet_dictSet r t _ _).mp hb with rfl | h''
        · exact Or.inr (List.mem_cons_self t rs)
        · exact Or.inl h''
    · exact Or.inr (List.mem_cons_of_mem r h')

/-- C9: `assign_roles_smartly` is exactly the ordered composition of the
preference pass, the greedy quota pass (ascending priority, least
versatile first) and the leftover pass; and it assigns exactly one label
to exactly the working workers: the returned dict is defined on a worker
iff that worker is in the working list. -/
theorem C9_three_pass_assignment (working : List Nat) (rm : Nat → List String)
    (cfg : List RoleDef) (prefs : Nat → Option String) :
    (assign_roles_smartly working rm cfg prefs =
      leftoverPass rm (stableSort rolePrioLe cfg)
        (quotaPass rm (stableSort rolePrioLe cfg)
          (prefPass rm prefs working
            ((stableSort rolePrioLe cfg).foldl (fun d r => dictSet r.name r.minPerDay d) []))
          (working.filter (fun s => !(decide (s ∈ (prefPass rm prefs working
            ((stableSort rolePrioLe cfg).foldl
              (fun d r => dictSet r.name r.minPerDay d) [])).asd))))).1.asg
        (quotaPass rm (stableSort rolePrioLe cfg)
          (prefPass rm prefs working
            ((stableSort rolePrioLe cfg).foldl (fun d r => dictSet r.name r.minPerDay d) []))
          (working.filter (fun s => !(decide (s ∈ (prefPass rm prefs working
            ((stableSort rolePrioLe cfg).foldl
              (fun d r => dictSet r.name r.minPerDay d) [])).asd))))).2) ∧
    ∀ s, ((dictGet s (assign_roles_smartly working rm cfg prefs)).isSome = true ↔
      s ∈ working) := by
  constructor
  · rfl
  · intro s
    set dem0 := (stableSort rolePrioLe cfg).foldl (fun d r => dictSet r.name r.minPerDay d) []
      with hdem0
    set st1 := prefPass rm prefs working dem0 with hst1
    set rem1 := working.filter (fun s => !(decide (s ∈ st1.asd))) with hrem1
    set st2 := quotaPass rm (stableSort rolePrioLe cfg) st1 rem1 with hst2
    have hQ : QInv st1.asg rem1 st2 := by
      rw [hst2]
      unfold quotaPass
      apply quotaPass_fold_QInv
      exact ⟨fun t ht => Or.inl ht, fun t ht => ht, fun t ht => Or.inr ht, fun t ht => ht⟩
    have hres : assign_roles_smartly working rm cfg prefs =
        leftoverPass rm (stableSort rolePrioLe cfg) st2.1.asg st2.2 := rfl
    rw [hres]
    constructor
    · intro h
      rcases leftover_src rm (stableSort rolePrioLe cfg) st2.2 st2.1.asg s h with h' | h'
      · rcases hQ.1 s h' with h'' | h''
        · rcases prefPass_fold_keys rm prefs working _ s h'' with h3 | h3
          · simp [dictGet] at h3
          · exact h3
        · exact List.mem_of_mem_filter h''
      · exact List.mem_of_mem_filter (hQ.2.1 s h')
    · intro hs
      apply leftover_total
      by_cases hasd : s ∈ st1.asd
      · left
        exact hQ.2.2.2 s (prefPass_fold_asd_inv rm prefs working _ (by simp) s hasd)
      · have hmem : s ∈ rem1 := by
          rw [hrem1]
          exact List.mem_filter.mpr ⟨hs, by simp [hasd]⟩
        exact hQ.2.2.1 s hmem

/-! ### Search invariants: pattern membership through shuffle and tiers -/

theorem mem_of_listSwap {α : Type} (l : List α) (i j : Nat) (x : α)
    (h : x ∈ listSwap l i j) : x ∈ l := by
  revert h
  unfold listSwap
  cases hi : l.get? i with
  | none => exact fun h => h
  | some xi =>
    cases hj : l.get? j with
    | none => exact fun h => h
    | some xj =>
      intro h
      rcases List.mem_or_eq_of_mem_set h with h1 | rfl
      · rcases List.mem_or_eq_of_mem_set h1 with h2 | rfl
        · exact h2
        · exact List.get?_mem hj
      · exact List.get?_mem hi

theorem mem_of_fyLoop {α : Type} (g : Nat → Nat) :
    ∀ (i : Nat) (l : List α) (pos : Nat) (x : α), x ∈ (fyLoop g i l pos).1 → x ∈ l := by
  intro i
  induction i with
  | zero => exact fun l pos x h => h
  | succ i ih =>
    intro l pos x h
    exact mem_of_listSwap _ _ _ _ (ih _ _ x h)

theorem mem_of_shuffleList {α : Type} (g : Nat → Nat) (pos : Nat) (l : List α) (x : α)
    (h : x ∈ (shuffleList g pos l).1) : x ∈ l :=
  mem_of_fyLoop g _ l pos x h

theorem mem_mkDayPatternsAux (inp : SolveInput) (g : Nat → Nat) :
    ∀ (rem pos d0 d' : Nat) (pat : List Nat),
      pat ∈ (mkDayPatternsAux inp g pos d0 rem).getD d' [] →
      pat ∈ rawDayPatterns inp (d0 + d') := by
  intro rem
  induction rem with
  | zero =>
    intro pos d0 d' pat h
    simp [mkDayPatternsAux] at h
  | succ rem ih =>
    intro pos d0 d' pat h
    cases d' with
    | zero =>
      simp only [mkDayPatternsAux, List.getD_cons_zero] at h
      simpa using mem_of_shuffleList g pos (rawDayPatterns inp d0) pat h
    | succ d' =>
      simp only [mkDayPatternsAux, List.getD_cons_succ] at h
      have := ih _ (d0 + 1) d' pat h
      have harith : d0 + 1 + d' = d0 + (d' + 1) := by omega
      rwa [harith] at this

theorem mem_dayPats_raw (inp : SolveInput) (g : Nat → Nat) (d' : Nat) (pat : List Nat)
    (h : pat ∈ (mkDayPatterns inp g).getD d' []) : pat ∈ rawDayPatterns inp d' := by
  have := mem_mkDayPatternsAux inp g (numDaysOf inp) 0 0 d' pat h
  simpa using this

theorem raw_sublist_avail (inp : SolveInput) (d : Nat) (pat : List Nat)
    (h : pat ∈ rawDayPatterns inp d) : pat.Sublist (availOn inp d) := by
  simp only [rawDayPatterns] at h
  split at h
  · exact ((gpdp_mem_iff _ _ _).mp h).1
  · split at h
    · exact ((gpdp_mem_iff _ _ _).mp h).1
    · exact ((gpdp_mem_iff _ _ _).mp (List.mem_of_mem_filter h)).1

theorem mem_usePatterns (inp : SolveInput) (pats : List (List Nat)) (pat : List Nat)
    (h : pat ∈ usePatternsOf inp pats) : pat ∈ pats := by
  simp only [usePatternsOf] at h
  split at h
  · rcases List.mem_append.mp (List.mem_of_mem_take h) with h' | h'
    · exact List.mem_of_mem_filter h'
    · exact List.mem_of_mem_filter h'
  · rcases List.mem_append.mp h with h' | h'
    · exact List.mem_of_mem_filter (List.mem_of_mem_take h')
    · exact List.mem_of_mem_filter (List.mem_of_mem_take h')

theorem stepPath_eq (inp : SolveInput) (d : Nat) (b : Bool) (p : Path) (pat : List Nat)
    (q : Path) (h : stepPath inp d b p pat = some q) :
    q.sched = p.sched ++ [maskColOf inp pat] ∧ q.cons = newConsOf inp p pat := by
  unfold stepPath at h
  split at h
  · exact absurd h (by simp)
  · rw [Option.some.injEq] at h
    rw [← h]
    exact ⟨rfl, rfl⟩

theorem mem_dayStep (inp : SolveInput) (pats : List (List Nat)) (d : Nat)
    (paths : List Path) (q : Path) (h : q ∈ dayStep inp pats d paths) :
    (∃ p ∈ paths, ∃ pat ∈ pats, ∃ b, stepPath inp d b p pat = some q) ∨
    (∃ p ∈ paths, q = tier3Path inp p) := by
  simp only [dayStep] at h
  have h1 := List.mem_of_mem_take h
  rw [mem_stableSort] at h1
  split at h1
  · split at h1
    · rcases List.mem_map.mp h1 with ⟨p, hp, heq⟩
      exact Or.inr ⟨p, hp, heq.symm⟩
    · rcases List.mem_flatMap.mp h1 with ⟨p, hp, hq⟩
      rcases List.mem_filterMap.mp hq with ⟨pat, hpat, hstep⟩
      exact Or.inl ⟨p, hp, pat, List.mem_of_mem_take hpat, false, hstep⟩
  · rcases List.mem_flatMap.mp h1 with ⟨p, hp, hq⟩
    rcases List.mem_filterMap.mp hq with ⟨pat, hpat, hstep⟩
    exact Or.inl ⟨p, hp, pat, mem_usePatterns inp pats pat hpat, true, hstep⟩

theorem dayStep_ne_nil (inp : SolveInput) (pats : List (List Nat)) (d : Nat)
    (paths : List Path) (h : paths ≠ []) : dayStep inp pats d paths ≠ [] := by
  simp only [dayStep]
  have hn : ∀ (n : List Path), n ≠ [] → (stableSort scoreLe n).take 600 ≠ [] := by
    intro n hne hc
    rw [List.take_eq_nil_iff] at hc
    rcases hc with hc | hc
    · omega
    · have hlen := congrArg List.length hc
      rw [length_stableSort] at hlen
      exact hne (List.length_eq_zero.mp hlen)
  apply hn
  split
  · split
    · simpa using h
    · rename_i h2
      simpa using h2
  · rename_i h1
    simpa using h1

theorem searchUpTo_ne_nil (inp : SolveInput) (dayPats : List (List (List Nat))) :
    ∀ D, searchUpTo inp dayPats D ≠ [] := by
  intro D
  induction D with
  | zero => simp [searchUpTo]
  | succ D ih => exact dayStep_ne_nil inp _ D _ ih

/-- C4 (amended): `solve_schedule_from_ui` returns no result exactly when
the cleaned staff table is empty; the path set is never empty at any day
boundary, so every other input (a non-positive date range included)
yields a completed table. -/
theorem C4_amended (inp : SolveInput) (g : Nat → Nat) :
    (solve_schedule_from_ui inp g = none ↔ staffC inp = []) ∧
    (∀ D, searchUpTo inp (mkDayPatterns inp g) D ≠ []) := by
  refine ⟨?_, searchUpTo_ne_nil inp (mkDayPatterns inp g)⟩
  unfold solve_schedule_from_ui solveFromPatterns bestPathFromPats
  rw [Option.map_eq_none']
  by_cases h : numStaffOf inp = 0
  · rw [if_pos h]
    simp only [true_iff]
    exact List.length_eq_zero.mp h
  · rw [if_neg h]
    constructor
    · intro hc
      exact absurd (List.head?_eq_none_iff.mp hc)
        (searchUpTo_ne_nil inp (mkDayPatterns inp g) (numDaysOf inp))
    · intro hc
      exact absurd (congrArg List.length hc) (by simpa [numStaffOf] using h)

theorem take_append_left {α : Type} (l l' : List α) (n : Nat) (h : n ≤ l.length) :
    (l ++ l').take n = l.take n := by
  rw [List.take_append_eq_append_take]
  have : n - l.length = 0 := by omega
  simp [this]

/-- Shape invariant of the search: after `D` days every surviving path
has exactly `D` day columns, and each column is either the work mask of a
pattern from that day's candidate list or the all-off column of the
universal-off tier. -/
theorem searchUpTo_sched (inp : SolveInput) (dayPats : List (List (List Nat))) :
    ∀ D, ∀ p ∈ searchUpTo inp dayPats D,
      p.sched.length = D ∧
      ∀ d', d' < D →
        ((∃ pat ∈ dayPats.getD d' [], p.sched.getD d' [] = maskColOf inp pat) ∨
          p.sched.getD d' [] = List.replicate (numStaffOf inp) false) := by
  intro D
  induction D with
  | zero =>
    intro p hp
    simp only [searchUpTo, List.mem_singleton] at hp
    subst hp
    exact ⟨rfl, fun d' hd' => absurd hd' (by omega)⟩
  | succ D ih =>
    intro p hp
    rcases mem_dayStep inp _ D _ p hp with ⟨q, hq, pat, hpat, b, hstep⟩ | ⟨q, hq, rfl⟩
    · obtain ⟨hsched, _⟩ := stepPath_eq inp D b q pat p hstep
      obtain ⟨hlen, hcols⟩ := ih q hq
      constructor
      · rw [hsched]
        simp [hlen]
      · intro d' hd'
        by_cases hlt : d' < D
        · rw [hsched, getD_append_left _ _ _ (by omega)]
          exact hcols d' hlt
        · have hdD : d' = D := by omega
          subst hdD
          left
          refine ⟨pat, hpat, ?_⟩
          rw [hsched, ← hlen, getD_append_last]
    · obtain ⟨hlen, hcols⟩ := ih q hq
      constructor
      · simp [tier3Path, hlen]
      · intro d' hd'
        by_cases hlt : d' < D
        · simp only [tier3Path]
          rw [getD_append_left _ _ _ (by omega)]
          exact hcols d' hlt
        · have hdD : d' = D := by omega
          subst hdD
          right
          simp only [tier3Path]
          rw [← hlen, getD_append_last]

/-- C3: a worker's requested day off that is not overridden by a
mandatory-work flag is honoured with the `×` symbol in the returned
schedule, under all three fallback tiers: no candidate pattern contains
an unavailable worker, and the universal-off column has everyone off. -/
theorem C3_requested_off (inp : SolveInput) (g : Nat → Nat) (s d : Nat) (T : ScheduleTable)
    (hT : solve_schedule_from_ui inp g = some T) (hd : d < numDaysOf inp)
    (hs : s < numStaffOf inp) (hoff : inp.offReq s d = true)
    (hmand : inp.reqWork s d = false) :
    (T.rows.getD s []).getD d "" = "×" := by
  unfold solve_schedule_from_ui solveFromPatterns at hT
  rcases Option.map_eq_some'.mp hT with ⟨p, hp, rfl⟩
  unfold bestPathFromPats at hp
  split at hp
  · exact absurd hp (by simp)
  · have hpmem : p ∈ searchUpTo inp (mkDayPatterns inp g) (numDaysOf inp) :=
      List.mem_of_mem_head? (Option.mem_def.mpr hp)
    have hfix : fixedOff inp s d = true := by simp [fixedOff, hoff, hmand]
    have hnotavail : s ∉ availOn inp d := by
      intro hmem
      have := (List.mem_filter.mp hmem).2
      rw [hfix] at this
      simp at this
    obtain ⟨hlen, hcols⟩ := searchUpTo_sched inp _ (numDaysOf inp) p hpmem
    have hcol : (p.sched.getD d []).getD s false = false := by
      rcases hcols d hd with ⟨pat, hpat, heq⟩ | heq
      · rw [heq]
        have hraw := mem_dayPats_raw inp g d pat hpat
        have hsub := raw_sublist_avail inp d pat hraw
        have hnotpat : s ∉ pat := fun hc => hnotavail (hsub.subset hc)
        rw [maskColOf, getD_map_range _ _ _ _ hs]
        simp [hnotpat]
      · rw [heq, getD_replicate' _ _ _ _ hs]
    show (((buildOutput inp p).rows.getD s []).getD d "") = "×"
    simp only [buildOutput]
    rw [getD_append_left _ _ _ (by simp [hs]), getD_map_range _ _ _ _ hs]
    rw [getD_append_left _ _ _ (by simp [workerRowOf, hd])]
    rw [workerRowOf, getD_map_range _ _ _ _ hd]
    unfold cellOf
    rw [hcol]
    simp [hfix]

/-- Witness for C3 at a concrete input: worker 2 of `w2` requests day 0
off, is not mandatory, and the returned schedule shows `×`. -/
theorem C3_witness :
    0 < numDaysOf w2 ∧ 2 < numStaffOf w2 ∧ w2.offReq 2 0 = true ∧ w2.reqWork 2 0 = false ∧
    (solve_schedule_from_ui w2 g0).map (fun T => (T.rows.getD 2 []).getD 0 "") =
      some "×" := by
  refine ⟨by decide, by decide, rfl, rfl, ?_⟩
  have hsome : ∃ T, solve_schedule_from_ui w2 g0 = some T := by
    cases h : solve_schedule_from_ui w2 g0 with
    | none => exact absurd h (by decide)
    | some T => exact ⟨T, rfl⟩
  obtain ⟨T, hT⟩ := hsome
  rw [hT, Option.map_some']
  exact congrArg some (C3_requested_off w2 g0 2 0 T hT (by decide) (by decide) rfl rfl)

/-- C1 (amended): the off-request is overridden before search, and on a
day whose candidate list (after the mandatory filter) contains the
mandatory worker in every pattern, the returned schedule can show the
worker off only through an all-off universal-off column; the
filter-dropped fallback and the universal-off tier are the only ways a
mandatory worker is shown off. -/
theorem C1_amended (inp : SolveInput) (g : Nat → Nat) (s d : Nat)
    (sch : List (List Bool)) (hd : d < numDaysOf inp) (hs : s < numStaffOf inp)
    (hmand : inp.reqWork s d = true)
    (hall : ∀ pat ∈ rawDayPatterns inp d, s ∈ pat)
    (hp : (bestPathOf inp g).map Path.sched = some sch) :
    fixedOff inp s d = false ∧
    ((sch.getD d []).getD s false = true ∨
      sch.getD d [] = List.replicate (numStaffOf inp) false) := by
  refine ⟨by simp [fixedOff, hmand], ?_⟩
  rcases Option.map_eq_some'.mp hp with ⟨p, hp', rfl⟩
  unfold bestPathOf bestPathFromPats at hp'
  split at hp'
  · exact absurd hp' (by simp)
  · have hpmem : p ∈ searchUpTo inp (mkDayPatterns inp g) (numDaysOf inp) :=
      List.mem_of_mem_head? (Option.mem_def.mpr hp')
    obtain ⟨hlen, hcols⟩ := searchUpTo_sched inp _ (numDaysOf inp) p hpmem
    rcases hcols d hd with ⟨pat, hpat, heq⟩ | heq
    · left
      rw [heq]
      have hmem := hall pat (mem_dayPats_raw inp g d pat hpat)
      rw [maskColOf, getD_map_range _ _ _ _ hs]
      simp [hmem]
    · right
      exact heq

/-- Witness for the amended C1: in `w1` every candidate pattern of day 0
contains the mandatory worker 0, and the theorem applies to the winning
work/off matrix, whose day-0 column has worker 0 working. -/
theorem C1_amended_witness :
    w1.reqWork 0 0 = true ∧ (∀ pat ∈ rawDayPatterns w1 0, 0 ∈ pat) ∧
    (fixedOff w1 0 0 = false ∧
      ((([[true, true]] : List (List Bool)).getD 0 []).getD 0 false = true ∨
        ([[true, true]] : List (List Bool)).getD 0 [] =
          List.replicate (numStaffOf w1) false)) :=
  ⟨rfl, by decide, C1_amended w1 g0 0 0 [[true, true]] (by decide) (by decide) rfl
    (by decide) (by decide)⟩

/-- The running consecutive-workdays counter of every surviving path
equals the recurrence over its schedule columns (carry-in included), in
all three tiers. -/
theorem searchUpTo_cons (inp : SolveInput) (dayPats : List (List (List Nat))) :
    ∀ D, ∀ p ∈ searchUpTo inp dayPats D, ∀ s, s < numStaffOf inp →
      p.cons.getD s 0 = consFold inp p.sched s := by
  intro D
  induction D with
  | zero =>
    intro p hp s hs
    simp only [searchUpTo, List.mem_singleton] at hp
    subst hp
    simp only [initPath, consFold, List.foldl_nil]
    exact getD_map_range _ _ _ _ hs
  | succ D ih =>
    intro p hp s hs
    rcases mem_dayStep inp _ D _ p hp with ⟨q, hq, pat, hpat, b, hstep⟩ | ⟨q, hq, rfl⟩
    · obtain ⟨hsched, hcons⟩ := stepPath_eq inp D b q pat p hstep
      rw [hcons, hsched]
      unfold consFold
      rw [List.foldl_append]
      simp only [List.foldl_cons, List.foldl_nil]
      rw [newConsOf, getD_map_range _ _ _ _ hs]
      rw [maskColOf, getD_map_range _ _ _ _ hs]
      have hIH := ih q hq s hs
      unfold consFold at hIH
      by_cases hm : s ∈ pat
      · rw [if_pos (by simp [hm]), if_pos (by simp [hm]), hIH]
      · rw [if_neg (by simp [hm]), if_neg (by simp [hm])]
    · simp only [tier3Path, consFold]
      rw [List.foldl_append]
      simp only [List.foldl_cons, List.foldl_nil]
      rw [getD_replicate' _ _ _ _ hs, getD_replicate' _ _ _ _ hs]
      simp

/-- A strict-mode expansion never emits a worker whose consecutive
counter exceeds the personal limit plus one (given a non-negative
limit): the over-by-more-than-one case is a hard rejection. -/
theorem stepPath_strict_cons_le (inp : SolveInput) (d : Nat) (p : Path) (pat : List Nat)
    (q : Path) (h : stepPath inp d true p pat = some q) (s : Nat)
    (hs : s < numStaffOf inp) (hM : 0 ≤ maxConsOf inp s) :
    q.cons.getD s 0 ≤ maxConsOf inp s + 1 := by
  have hcons := (stepPath_eq inp d true p pat q h).2
  unfold stepPath at h
  split at h
  · exact absurd h (by simp)
  · rename_i hcond
    rw [hcons, newConsOf, getD_map_range _ _ _ _ hs]
    by_cases hm : s ∈ pat
    · rw [if_pos (by simp [hm])]
      by_contra hgt
      push_neg at hgt
      apply hcond
      simp only [Bool.true_and, Bool.or_eq_true]
      left
      rw [stepViolation, List.any_eq_true]
      refine ⟨s, List.mem_range.mpr hs, ?_⟩
      simp only [Bool.and_eq_true, decide_eq_true_eq]
      exact ⟨hm, by omega⟩
    · rw [if_neg (by simp [hm])]
      omega

/-- When the strict tier of a day is non-empty, every path surviving the
day came from a strict-mode expansion. -/
theorem mem_dayStep_strict (inp : SolveInput) (pats : List (List Nat)) (d : Nat)
    (paths : List Path) (q : Path)
    (hne : expandPaths inp d true paths (usePatternsOf inp pats) ≠ [])
    (h : q ∈ dayStep inp pats d paths) :
    ∃ p ∈ paths, ∃ pat, pat ∈ usePatternsOf inp pats ∧
      stepPath inp d true p pat = some q := by
  simp only [dayStep] at h
  have h1 := List.mem_of_mem_take h
  rw [mem_stableSort] at h1
  rw [if_neg (by simpa using hne)] at h1
  rcases List.mem_flatMap.mp h1 with ⟨p, hp, hq⟩
  rcases List.mem_filterMap.mp hq with ⟨pat, hpat, hstep⟩
  exact ⟨p, hp, pat, hpat, hstep⟩

/-- When every day so far was settled by the strict tier, every
consecutive-workdays run (carry-in included) in every surviving path's
schedule is at most the personal limit plus one. -/
theorem searchUpTo_strict_bound (inp : SolveInput) (g : Nat → Nat)
    (hM : ∀ s, s < numStaffOf inp → 0 ≤ maxConsOf inp s) :
    ∀ D, (∀ d, d < D → strictOk inp (mkDayPatterns inp g) d) →
      ∀ p ∈ searchUpTo inp (mkDayPatterns inp g) D, ∀ s, s < numStaffOf inp →
        ∀ d, d < D → consFold inp (p.sched.take (d + 1)) s ≤ maxConsOf inp s + 1 := by
  intro D
  induction D with
  | zero =>
    intro _ p hp s hs d hd
    exact absurd hd (by omega)
  | succ D ih =>
    intro hstrict p hp s hs d hd
    have hOk := hstrict D (by omega)
    obtain ⟨q, hq, pat, hpat, hstep⟩ :=
      mem_dayStep_strict inp _ D _ p hOk hp
    obtain ⟨hsched, _⟩ := stepPath_eq inp D true q pat p hstep
    have hlenq := (searchUpTo_sched inp _ D q hq).1
    by_cases hdD : d < D
    · rw [hsched]
      unfold consFold
      rw [take_append_left _ _ _ (by omega)]
      exact ih (fun d' hd' => hstrict d' (by omega)) q hq s hs d hdD
    · have hdeq : d = D := by omega
      subst hdeq
      have hwhole : p.sched.take (d + 1) = p.sched := by
        apply List.take_of_length_le
        rw [hsched]
        simp [hlenq]
      rw [hwhole]
      rw [← searchUpTo_cons inp (mkDayPatterns inp g) (d + 1) p hp s hs]
      exact stepPath_strict_cons_le inp d q pat p hstep s hs (hM s hs)

/-- C2 (amended): when every day of the window was settled by the strict
tier (no relaxed or universal-off fallback), every worker's run of
consecutive worked days in the returned schedule — including the
carry-in from before the window — never exceeds that worker's personal
limit plus one; the relaxed tier does not enforce this bound. -/
theorem C2_amended (inp : SolveInput) (g : Nat → Nat) (sch : List (List Bool))
    (hM : ∀ s, s < numStaffOf inp → 0 ≤ maxConsOf inp s)
    (hstrict : ∀ d, d < numDaysOf inp → strictOk inp (mkDayPatterns inp g) d)
    (hp : (bestPathOf inp g).map Path.sched = some sch) (s d : Nat)
    (hs : s < numStaffOf inp) (hd : d < numDaysOf inp) :
    consFold inp (sch.take (d + 1)) s ≤ maxConsOf inp s + 1 := by
  rcases Option.map_eq_some'.mp hp with ⟨p, hp', rfl⟩
  unfold bestPathOf bestPathFromPats at hp'
  split at hp'
  · exact absurd hp' (by simp)
  · exact searchUpTo_strict_bound inp g hM (numDaysOf inp) hstrict p
      (List.mem_of_mem_head? (Option.mem_def.mpr hp')) s hs d hd

/-- Witness for the amended C2 at `w1`: the one-day window is settled in
strict mode and both workers' runs stay within limit + 1. -/
theorem C2_amended_witness :
    (∀ s, s < numStaffOf w1 → 0 ≤ maxConsOf w1 s) ∧
    (∀ d, d < numDaysOf w1 → strictOk w1 (mkDayPatterns w1 g0) d) ∧
    (bestPathOf w1 g0).map Path.sched = some [[true, true]] ∧
    consFold w1 (([[true, true]] : List (List Bool)).take 1) 0 ≤ maxConsOf w1 0 + 1 :=
  ⟨by decide, by decide, by decide,
    C2_amended w1 g0 [[true, true]] (by decide) (by decide) (by decide) 0 0 (by decide)
      (by decide)⟩

end Antigravity
